import Mathlib

/-!
Verification of the pffeed pipeline: a shallow embedding of the server-side
enrichment / queue / pacer / bundle logic and of the client-side card
renderer, with theorems settling the behavioural claims about them.

JavaScript strings are modelled as `List Char`; JavaScript numbers that
carry pixel positions and elapsed times are modelled as `ℚ`; fallible
network fetches are modelled as oracle functions returning `Option`.
-/

/-- JavaScript strings are modelled as lists of characters. -/
abbrev JStr := List Char

/-- Coerce a Lean string literal to the `List Char` model. -/
def jStr (s : String) : JStr := s.data

/-! ## Image URL rewriting (`processMetadataImage` in server.js) -/

/-- The content-addressed path segment `"/ipfs/"` that the server splits on. -/
def ipfsSeg : JStr := jStr "/ipfs/"

/-- The canonical gateway base used for rewritten image URLs. -/
def pinataBase : JStr := jStr "https://pump.mypinata.cloud/ipfs/"

/-- The sizing query string appended to rewritten image URLs. -/
def imgQuery : JStr := jStr "?img-width=256&img-dpr=2&img-onerror=redirect"

/-- Fuelled worker for `String.prototype.split("/ipfs/")`: leftmost,
non-overlapping matches, as the JavaScript engine performs them.  The fuel
is only there to make the recursion structural; `s.length` fuel always
suffices because every step consumes at least one character. -/
def splitIpfsFuel : Nat → JStr → JStr → List JStr
  | 0, s, acc => [acc.reverse ++ s]
  | fuel + 1, s, acc =>
    match s with
    | [] => [acc.reverse]
    | c :: rest =>
      if ipfsSeg.isPrefixOf (c :: rest) then
        acc.reverse :: splitIpfsFuel fuel (rest.drop 5) []
      else
        splitIpfsFuel fuel rest (c :: acc)

/-- `imageUrl.split("/ipfs/")` from the JavaScript source. -/
def splitIpfs (s : JStr) : List JStr := splitIpfsFuel s.length s []

/-- `processMetadataImage` from server.js: a falsy (empty) URL yields `""`;
a URL splitting into exactly two parts around `"/ipfs/"` is rewritten to
the pinata template; anything else is returned unchanged. -/
def processMetadataImage (imageUrl : JStr) : JStr :=
  if imageUrl = [] then []
  else
    match splitIpfs imageUrl with
    | [_, hash] => pinataBase ++ hash ++ imgQuery
    | _ => imageUrl

/-- Rejoining the split parts with the separator: used to show the split is
a genuine decomposition of the input URL. -/
def joinIpfs : List JStr → JStr
  | [] => []
  | [x] => x
  | x :: y :: rest => x ++ ipfsSeg ++ joinIpfs (y :: rest)

lemma splitIpfsFuel_ne_nil (fuel : Nat) (s acc : JStr) :
    splitIpfsFuel fuel s acc ≠ [] := by
  induction fuel generalizing s acc with
  | zero => simp [splitIpfsFuel]
  | succ fuel ih =>
    match s with
    | [] => simp [splitIpfsFuel]
    | c :: rest =>
      simp only [splitIpfsFuel]
      split
      · simp
      · exact ih rest (c :: acc)

lemma joinIpfs_cons {x : JStr} {L : List JStr} (hL : L ≠ []) :
    joinIpfs (x :: L) = x ++ ipfsSeg ++ joinIpfs L := by
  match L with
  | [] => exact absurd rfl hL
  | y :: rest => rfl

lemma splitIpfsFuel_join (fuel : Nat) :
    ∀ s acc : JStr, s.length ≤ fuel →
      joinIpfs (splitIpfsFuel fuel s acc) = acc.reverse ++ s := by
  induction fuel with
  | zero =>
    intro s acc hs
    have hnil : s = [] := List.eq_nil_of_length_eq_zero (Nat.le_zero.mp hs)
    subst hnil
    simp [splitIpfsFuel, joinIpfs]
  | succ fuel ih =>
    intro s acc hs
    match s with
    | [] => simp [splitIpfsFuel, joinIpfs]
    | c :: rest =>
      simp only [splitIpfsFuel]
      by_cases hpre : ipfsSeg.isPrefixOf (c :: rest) = true
      · rw [if_pos hpre]
        obtain ⟨tail, htail⟩ := List.isPrefixOf_iff_prefix.mp hpre
        have hseglen : ipfsSeg.length = 6 := by decide
        have htail' : rest.drop 5 = tail := by
          have h0 : rest.drop 5 = (c :: rest).drop 6 := rfl
          rw [h0, ← htail, show (6 : Nat) = ipfsSeg.length from hseglen.symm,
            List.drop_left]
        have hlen : tail.length + 6 = rest.length + 1 := by
          have hl := congrArg List.length htail
          simp only [List.length_append, List.length_cons, hseglen] at hl
          omega
        have hs' : rest.length + 1 ≤ fuel + 1 := by simpa using hs
        have hrec := ih (rest.drop 5) [] (by rw [htail']; omega)
        rw [joinIpfs_cons (splitIpfsFuel_ne_nil _ _ _), hrec, htail', ← htail]
        simp
      · rw [if_neg hpre]
        have hrec := ih rest (c :: acc) (by simpa using Nat.le_of_succ_le_succ hs)
        rw [hrec]
        simp

/-- The JavaScript split is a decomposition: rejoining the parts with
`"/ipfs/"` recovers the original string. -/
lemma splitIpfs_join (s : JStr) : joinIpfs (splitIpfs s) = s :=
  splitIpfsFuel_join s.length s [] le_rfl

/-! ## Description normalization (the message handler's refinement step) -/

/-- The character class of the JavaScript `\s` regex escape, restricted to
the code points that can occur in this pipeline's metadata. -/
def isJsWs (c : Char) : Bool :=
  c = ' ' || c = '\t' || c = '\n' || c = '\r' ||
  c = Char.ofNat 11 || c = Char.ofNat 12 || c = Char.ofNat 160 ||
  c = Char.ofNat 0xFEFF

/-- `replace(/\r?\n|\r/g, " ")`: each line break (a CRLF pair, a lone LF,
or a lone CR) becomes a single space. -/
def replaceLineBreaks : JStr → JStr
  | [] => []
  | '\r' :: '\n' :: rest => ' ' :: replaceLineBreaks rest
  | '\n' :: rest => ' ' :: replaceLineBreaks rest
  | '\r' :: rest => ' ' :: replaceLineBreaks rest
  | c :: rest => c :: replaceLineBreaks rest

/-- Worker for `replace(/\s+/g, " ")`: the flag records whether we are in
the middle of a whitespace run that has already emitted its space. -/
def collapseWsAux : Bool → JStr → JStr
  | _, [] => []
  | skipping, c :: rest =>
    if isJsWs c then
      if skipping then collapseWsAux true rest
      else ' ' :: collapseWsAux true rest
    else c :: collapseWsAux false rest

/-- `replace(/\s+/g, " ")`: every maximal whitespace run becomes one space. -/
def collapseWs (s : JStr) : JStr := collapseWsAux false s

/-- `String.prototype.trim()`. -/
def jsTrim (s : JStr) : JStr :=
  ((s.dropWhile isJsWs).reverse.dropWhile isJsWs).reverse

/-- The single-line form the server computes before the length test. -/
def normalizeDesc (s : JStr) : JStr := jsTrim (collapseWs (replaceLineBreaks s))

/-- The description cap from server.js. -/
def DESC_CAP : Nat := 35

/-- The full description refinement from the message handler: normalize,
then truncate to 35 characters plus `"..."` when the normalized form is
longer than 35. -/
def refineDesc (s : JStr) : JStr :=
  let finalDesc := normalizeDesc s
  if DESC_CAP < finalDesc.length then finalDesc.take DESC_CAP ++ jStr "..."
  else finalDesc

lemma collapseWsAux_chars (b : Bool) (l : JStr) :
    ∀ c ∈ collapseWsAux b l, c = ' ' ∨ isJsWs c = false := by
  induction l generalizing b with
  | nil => simp [collapseWsAux]
  | cons x rest ih =>
    intro c hc
    simp only [collapseWsAux] at hc
    by_cases hx : isJsWs x = true
    · rw [if_pos hx] at hc
      by_cases hb : b
      · subst hb
        rw [if_pos rfl] at hc
        exact ih true c hc
      · simp only [hb, if_neg, Bool.false_eq_true, not_false_eq_true,
          if_false] at hc
        rcases List.mem_cons.mp hc with h | h
        · exact Or.inl h
        · exact ih true c h
    · rw [if_neg hx] at hc
      rcases List.mem_cons.mp hc with h | h
      · subst h
        exact Or.inr (by simpa using hx)
      · exact ih false c h

lemma mem_of_mem_jsTrim {c : Char} {s : JStr} (h : c ∈ jsTrim s) : c ∈ s := by
  unfold jsTrim at h
  rw [List.mem_reverse] at h
  have h1 := (List.dropWhile_sublist isJsWs).mem h
  rw [List.mem_reverse] at h1
  exact (List.dropWhile_sublist isJsWs).mem h1

lemma normalizeDesc_no_break {c : Char} {s : JStr} (h : c ∈ normalizeDesc s) :
    c ≠ '\n' ∧ c ≠ '\r' := by
  have hmem : c ∈ collapseWs (replaceLineBreaks s) := mem_of_mem_jsTrim h
  rcases collapseWsAux_chars false (replaceLineBreaks s) c hmem with h1 | h1
  · subst h1
    exact ⟨by decide, by decide⟩
  · constructor
    · rintro rfl
      simp [isJsWs] at h1
    · rintro rfl
      simp [isJsWs] at h1

/-! ## Metadata enrichment (`enrichTokenData` in server.js) -/

/-- A token record as it flows through the server: the raw PumpPortal
fields plus the metadata fields that enrichment may overwrite.  `none`
models an absent (JavaScript `undefined`) field. -/
structure TokenData where
  uri : Option JStr
  mint : JStr
  metadata_name : Option JStr
  metadata_symbol : Option JStr
  name : Option JStr
  symbol : Option JStr
  description : Option JStr
  image : Option JStr
deriving DecidableEq

/-- A fetched IPFS metadata document; every field is optional. -/
structure Metadata where
  name : Option JStr
  symbol : Option JStr
  description : Option JStr
  image : Option JStr
deriving DecidableEq

/-- JavaScript `a || b` on optional strings: an absent or empty left
operand is falsy and yields the right operand. -/
def jsOr (a b : Option JStr) : Option JStr :=
  match a with
  | some s => if s = [] then b else some s
  | none => b

/-- JavaScript `String.prototype.replace` with a plain-string pattern:
only the leftmost occurrence is replaced. -/
def replaceFirst (pat repl : JStr) : JStr → JStr
  | [] => []
  | c :: rest =>
    if pat.isPrefixOf (c :: rest) then repl ++ (c :: rest).drop pat.length
    else c :: replaceFirst pat repl rest

/-- The first gateway's base URL, which is the literal pattern that
`enrichTokenData` substitutes in the token URI. -/
def ipfsIoBase : JStr := jStr "https://ipfs.io/ipfs/"

/-- The ordered gateway list from server.js. -/
def IPFS_GATEWAYS : List JStr :=
  [jStr "https://ipfs.io/ipfs/",
   jStr "https://gateway.pinata.cloud/ipfs/",
   jStr "https://dweb.link/ipfs/"]

/-- The `for (const gateway of IPFS_GATEWAYS)` loop: try each gateway in
order, returning the first successfully fetched document. -/
def tryGateways (fetch : JStr → Option Metadata) (uri : JStr) :
    List JStr → Option Metadata
  | [] => none
  | g :: gs =>
    match fetch (replaceFirst ipfsIoBase g uri) with
    | some m => some m
    | none => tryGateways fetch uri gs

/-- `enrichTokenData` from server.js.  The network is modelled by the
`fetch` oracle: `fetch url = none` is a failed request.  A falsy (absent
or empty) `uri` and a totally failed gateway loop both return the raw
token unchanged; otherwise the metadata fields are merged over the raw
record exactly as the JavaScript object spread does. -/
def enrichTokenData (fetch : JStr → Option Metadata) (t : TokenData) :
    TokenData :=
  match t.uri with
  | none => t
  | some uri =>
    if uri = [] then t
    else
      match tryGateways fetch uri IPFS_GATEWAYS with
      | none => t
      | some m =>
        { t with
          name := jsOr m.name t.metadata_name
          symbol := jsOr m.symbol t.metadata_symbol
          description := some (m.description.getD [])
          image := some (processMetadataImage (m.image.getD [])) }

lemma tryGateways_none (fetch : JStr → Option Metadata) (uri : JStr)
    (gs : List JStr) (hfail : ∀ url, fetch url = none) :
    tryGateways fetch uri gs = none := by
  induction gs with
  | nil => rfl
  | cons g gs ih => simp only [tryGateways, hfail, ih]

lemma tryGateways_first_success (fetch : JStr → Option Metadata) (uri : JStr)
    (doc : Metadata) :
    ∀ (pre : List JStr) (g : JStr) (post : List JStr),
      (∀ g' ∈ pre, fetch (replaceFirst ipfsIoBase g' uri) = none) →
      fetch (replaceFirst ipfsIoBase g uri) = some doc →
      tryGateways fetch uri (pre ++ g :: post) = some doc := by
  intro pre
  induction pre with
  | nil =>
    intro g post _ hg
    simp only [List.nil_append, tryGateways, hg]
  | cons p pre ih =>
    intro g post hpre hg
    have hp : fetch (replaceFirst ipfsIoBase p uri) = none :=
      hpre p (List.mem_cons_self p pre)
    simp only [List.cons_append, tryGateways, hp]
    exact ih g post (fun g' hg' => hpre g' (List.mem_cons_of_mem p hg')) hg

/-! ## Client feed renderer (script.js / pixi-script.js) -/

/-- A client-side card: identity, measured pixel height, and current
vertical position. -/
structure Coin where
  id : Nat
  height : ℚ
  y : ℚ
deriving DecidableEq

/-- The vertical gap constant `COIN_SPACING` from the client scripts. -/
def COIN_SPACING : ℚ := 10

/-- One frame's movement-and-clamp pass over the newest-first card list:
the loop runs from the oldest card (highest index) to the newest
(index 0), advances each card by `d`, and clamps it against the
already-updated position of its older neighbour. -/
def advanceClamp (d : ℚ) : List Coin → List Coin
  | [] => []
  | c :: rest =>
    match advanceClamp d rest with
    | [] => [{ c with y := c.y + d }]
    | below :: tl =>
      { c with
        y := if below.y - c.height - COIN_SPACING < c.y + d
             then below.y - c.height - COIN_SPACING
             else c.y + d } :: below :: tl

/-- One full frame: advance-and-clamp, then evict every card whose
position exceeds the container height `H`. -/
def frameStep (H d : ℚ) (cards : List Coin) : List Coin :=
  (advanceClamp d cards).filter (fun c => decide (c.y ≤ H))

/-- A run of consecutive frames with the given elapsed distances. -/
def runFrames (H : ℚ) (ds : List ℚ) (cards : List Coin) : List Coin :=
  ds.foldl (fun cs d => frameStep H d cs) cards

/-- `createCoinElement` / `createAndAddCoin`: a new card is placed at
`-height` (fully above the container) and unshifted to index 0,
independently of the existing cards. -/
def insertCoin (cards : List Coin) (i : Nat) (h : ℚ) : List Coin :=
  { id := i, height := h, y := -h } :: cards

/-- The adjacency invariant: each newer card, plus its own height and the
spacing, stays above its older neighbour. -/
def noOverlapB : List Coin → Bool
  | c1 :: c2 :: rest =>
    (decide (c1.y + c1.height + COIN_SPACING ≤ c2.y)) && noOverlapB (c2 :: rest)
  | _ => true

lemma noOverlapB_cons_cons {c1 c2 : Coin} {l : List Coin} :
    noOverlapB (c1 :: c2 :: l) = true ↔
      c1.y + c1.height + COIN_SPACING ≤ c2.y ∧ noOverlapB (c2 :: l) = true := by
  simp [noOverlapB]

lemma noOverlapB_tail {c : Coin} {l : List Coin}
    (h : noOverlapB (c :: l) = true) : noOverlapB l = true := by
  cases l with
  | nil => rfl
  | cons b tl => exact (noOverlapB_cons_cons.mp h).2

lemma noOverlapB_bound {c : Coin} : ∀ {l : List Coin},
    noOverlapB (c :: l) = true → (∀ b ∈ l, 0 ≤ b.height) →
    ∀ b ∈ l, c.y + c.height + COIN_SPACING ≤ b.y := by
  intro l
  induction l generalizing c with
  | nil =>
    intro _ _ b hb
    simp at hb
  | cons x tl ih =>
    intro h hh b hb
    have h1 : c.y + c.height + COIN_SPACING ≤ x.y :=
      (noOverlapB_cons_cons.mp h).1
    rcases List.mem_cons.mp hb with hbx | hb'
    · subst hbx
      exact h1
    · have hx : 0 ≤ x.height := hh x (List.mem_cons_self _ _)
      have h2 := ih (noOverlapB_cons_cons.mp h).2
        (fun b' hb'' => hh b' (List.mem_cons_of_mem _ hb'')) b hb'
      have hS : (0 : ℚ) ≤ COIN_SPACING := by norm_num [COIN_SPACING]
      linarith

lemma noOverlapB_cons_of_bound {c : Coin} {l : List Coin}
    (hb : ∀ b ∈ l, c.y + c.height + COIN_SPACING ≤ b.y)
    (hl : noOverlapB l = true) : noOverlapB (c :: l) = true := by
  cases l with
  | nil => rfl
  | cons x tl =>
    exact noOverlapB_cons_cons.mpr ⟨hb x (List.mem_cons_self _ _), hl⟩

lemma noOverlapB_filter (p : Coin → Bool) : ∀ {l : List Coin},
    noOverlapB l = true → (∀ b ∈ l, 0 ≤ b.height) →
    noOverlapB (l.filter p) = true := by
  intro l
  induction l with
  | nil => intro _ _; rfl
  | cons c tl ih =>
    intro h hh
    have htl := noOverlapB_tail h
    have hhtl : ∀ b ∈ tl, 0 ≤ b.height :=
      fun b hb => hh b (List.mem_cons_of_mem _ hb)
    rw [List.filter_cons]
    split
    · apply noOverlapB_cons_of_bound
      · intro b hb
        exact noOverlapB_bound h hhtl b (List.mem_of_mem_filter hb)
      · exact ih htl hhtl
    · exact ih htl hhtl

lemma advanceClamp_noOverlap (d : ℚ) : ∀ l : List Coin,
    noOverlapB (advanceClamp d l) = true := by
  intro l
  induction l with
  | nil => rfl
  | cons c rest ih =>
    simp only [advanceClamp]
    cases hrest : advanceClamp d rest with
    | nil => rfl
    | cons b tl =>
      rw [hrest] at ih
      apply noOverlapB_cons_cons.mpr
      refine ⟨?_, ih⟩
      dsimp only
      split
      · linarith
      · rename_i hnl
        push_neg at hnl
        linarith

lemma advanceClamp_map_pair (d : ℚ) : ∀ l : List Coin,
    (advanceClamp d l).map (fun c => (c.id, c.height)) =
      l.map (fun c => (c.id, c.height)) := by
  intro l
  induction l with
  | nil => rfl
  | cons c rest ih =>
    simp only [advanceClamp]
    cases hrest : advanceClamp d rest with
    | nil =>
      rw [hrest] at ih
      simp only [List.map_nil] at ih
      simp [← ih]
    | cons b tl =>
      rw [hrest] at ih
      simp [ih]

lemma mem_advanceClamp {d : ℚ} {l : List Coin} :
    ∀ c ∈ advanceClamp d l, ∃ c' ∈ l, c.id = c'.id ∧ c.height = c'.height := by
  intro c hc
  have hmem : (c.id, c.height) ∈ l.map (fun c => (c.id, c.height)) := by
    rw [← advanceClamp_map_pair d l]
    exact List.mem_map_of_mem _ hc
  obtain ⟨c', hc', hpair⟩ := List.mem_map.mp hmem
  exact ⟨c', hc', by
    have h1 := congrArg Prod.fst hpair
    have h2 := congrArg Prod.snd hpair
    exact ⟨h1.symm, h2.symm⟩⟩

lemma advanceClamp_map_id (d : ℚ) (l : List Coin) :
    (advanceClamp d l).map Coin.id = l.map Coin.id := by
  have h := congrArg (List.map Prod.fst) (advanceClamp_map_pair d l)
  simpa [List.map_map, Function.comp] using h

lemma advanceClamp_heights {d : ℚ} {l : List Coin}
    (hh : ∀ c ∈ l, 0 ≤ c.height) : ∀ c ∈ advanceClamp d l, 0 ≤ c.height := by
  intro c hc
  obtain ⟨c', hc', _, hht⟩ := mem_advanceClamp c hc
  rw [hht]
  exact hh c' hc'

lemma frameStep_noOverlap {H d : ℚ} {l : List Coin}
    (hh : ∀ c ∈ l, 0 ≤ c.height) : noOverlapB (frameStep H d l) = true :=
  noOverlapB_filter _ (advanceClamp_noOverlap d l) (advanceClamp_heights hh)

lemma frameStep_heights {H d : ℚ} {l : List Coin}
    (hh : ∀ c ∈ l, 0 ≤ c.height) : ∀ c ∈ frameStep H d l, 0 ≤ c.height :=
  fun c hc => advanceClamp_heights hh c (List.mem_of_mem_filter hc)

lemma runFrames_cons_noOverlap (H : ℚ) : ∀ (ds : List ℚ) (d : ℚ)
    (cs : List Coin), (∀ c ∈ cs, 0 ≤ c.height) →
    noOverlapB (runFrames H (d :: ds) cs) = true := by
  intro ds
  induction ds with
  | nil =>
    intro d cs hh
    exact frameStep_noOverlap hh
  | cons d2 ds ih =>
    intro d cs hh
    have : runFrames H (d :: d2 :: ds) cs =
        runFrames H (d2 :: ds) (frameStep H d cs) := rfl
    rw [this]
    exact ih d2 (frameStep H d cs) (frameStep_heights hh)

lemma frameStep_id_subset {H d : ℚ} {l : List Coin} :
    ∀ i ∈ (frameStep H d l).map Coin.id, i ∈ l.map Coin.id := by
  intro i hi
  rw [← advanceClamp_map_id d l]
  exact ((List.filter_sublist _).map Coin.id).subset hi

lemma runFrames_id_not_mem (H : ℚ) : ∀ (ds : List ℚ) (cs : List Coin)
    (i : Nat), i ∉ cs.map Coin.id → i ∉ (runFrames H ds cs).map Coin.id := by
  intro ds
  induction ds with
  | nil => intro cs i h; exact h
  | cons d ds ih =>
    intro cs i h
    have : runFrames H (d :: ds) cs = runFrames H ds (frameStep H d cs) := rfl
    rw [this]
    exact ih (frameStep H d cs) i (fun hmem => h (frameStep_id_subset i hmem))

/-! ## Event queue and pacer -/

/-- Operations on the server's event queue: the upstream handler pushes an
enriched event; the pacer interval fires a tick. -/
inductive QOp (α : Type) where
  | push (e : α)
  | tick

/-- The queue together with the ordered list of events already forwarded
to the broadcaster. -/
structure QState (α : Type) where
  queue : List α
  sent : List α

/-- One step: `push` appends to the queue; a `tick` pops the head (if any)
and forwards exactly that event, and is a no-op on an empty queue. -/
def qstep {α : Type} (s : QState α) : QOp α → QState α
  | .push e => { s with queue := s.queue ++ [e] }
  | .tick =>
    match s.queue with
    | [] => s
    | e :: rest => { queue := rest, sent := s.sent ++ [e] }

/-- Run a sequence of pushes and ticks from the empty initial state. -/
def qrun {α : Type} (ops : List (QOp α)) : QState α :=
  ops.foldl qstep { queue := [], sent := [] }

/-- The events pushed by an operation sequence, in push order. -/
def pushedOf {α : Type} (ops : List (QOp α)) : List α :=
  ops.filterMap (fun op =>
    match op with
    | .push e => some e
    | .tick => none)

lemma qstep_sent_queue {α : Type} (s : QState α) (op : QOp α) :
    (qstep s op).sent ++ (qstep s op).queue =
      s.sent ++ s.queue ++ pushedOf [op] := by
  cases op with
  | push e => simp [qstep, pushedOf]
  | tick =>
    cases hq : s.queue with
    | nil => simp [qstep, hq, pushedOf]
    | cons e rest => simp [qstep, hq, pushedOf]

lemma qfoldl_sent_queue {α : Type} : ∀ (ops : List (QOp α)) (s : QState α),
    (ops.foldl qstep s).sent ++ (ops.foldl qstep s).queue =
      s.sent ++ s.queue ++ pushedOf ops := by
  intro ops
  induction ops with
  | nil => intro s; simp [pushedOf]
  | cons op ops ih =>
    intro s
    rw [List.foldl_cons, ih (qstep s op), qstep_sent_queue]
    cases op with
    | push e => simp [pushedOf]
    | tick => simp [pushedOf]

/-! ## Client message handlers (frame-shape acceptance) -/

/-- An inbound client frame, with every field optional so that both the
untagged and the tagged wire shapes are expressible. -/
structure WireFrame where
  type : Option JStr
  txType : Option JStr
  method : Option JStr
  coinId : Option Nat
  name : Option JStr
  symbol : Option JStr
  image : Option JStr
  description : Option JStr
  mint : Option JStr
deriving DecidableEq

/-- script.js `onmessage`: a card is created only for frames with
`txType === "create"` or `method === "subscribeNewToken"`. -/
def scriptHandles (f : WireFrame) : Bool :=
  decide (f.txType = some (jStr "create")) ||
  decide (f.method = some (jStr "subscribeNewToken"))

/-- pixi-script.js `onmessage`: a card is created only for frames with
`type === "newToken"`. -/
def pixiHandles (f : WireFrame) : Bool :=
  decide (f.type = some (jStr "newToken"))

/-- The unnamed pixi variant's `onmessage`: a card is created for every
parsed frame, unconditionally. -/
def part000Handles (_ : WireFrame) : Bool := true

/-- The untagged new-token shape `{coinId, name, symbol, image,
description, mint}`. -/
def untaggedFrame (cid : Nat) (n sy im de mi : JStr) : WireFrame :=
  { type := none, txType := none, method := none, coinId := some cid,
    name := some n, symbol := some sy, image := some im,
    description := some de, mint := some mi }

/-- The tagged shape `{type: "newToken", ...fields}`. -/
def taggedFrame (cid : Nat) (n sy im de mi : JStr) : WireFrame :=
  { untaggedFrame cid n sy im de mi with type := some (jStr "newToken") }

/-! ## Bundling server: decision bundles and the pacer (server.js) -/

/-- A message the bundling server broadcasts: a paced `newToken` frame
(identified here by its coinId) or an immediate `decisionBundle` whose
decisions map coinIds to yes (`true`) / no (`false`). -/
inductive OutMsg where
  | newToken (coinId : Nat)
  | bundle (decisions : List (Nat × Bool))
deriving DecidableEq

/-- The bundling server's state: the coinId counter, the coinIds
accumulated in the current bundle, the paced event queue, and the ordered
log of broadcasts already sent to clients. -/
structure SrvState where
  nextCoinId : Nat
  currentBundle : List Nat
  queue : List OutMsg
  outbox : List OutMsg
deriving DecidableEq

/-- `BUNDLE_SIZE` from server.js. -/
def BUNDLE_SIZE : Nat := 8

/-- The `txType === "create"` branch of the PumpPortal message handler:
assign `coinId = nextCoinId++`, push it onto the current bundle, and if
the bundle is full broadcast the decision bundle immediately — before the
refined event is pushed onto the paced queue. -/
def handleCreate (rand : Nat → Bool) (s : SrvState) : SrvState :=
  let coinId := s.nextCoinId
  let bundle := s.currentBundle ++ [coinId]
  if bundle.length = BUNDLE_SIZE then
    { nextCoinId := coinId + 1
      currentBundle := []
      queue := s.queue ++ [OutMsg.newToken coinId]
      outbox := s.outbox ++ [OutMsg.bundle (bundle.map (fun i => (i, rand i)))] }
  else
    { nextCoinId := coinId + 1
      currentBundle := bundle
      queue := s.queue ++ [OutMsg.newToken coinId]
      outbox := s.outbox }

/-- Server-side events: a creation event arrives, or the pacer ticks. -/
inductive SrvOp where
  | create
  | tick

/-- One step of the bundling server: a pacer tick pops the queue head and
broadcasts it; a creation event runs the message handler. -/
def srvStep (rand : Nat → Bool) (s : SrvState) : SrvOp → SrvState
  | .create => handleCreate rand s
  | .tick =>
    match s.queue with
    | [] => s
    | m :: rest => { s with queue := rest, outbox := s.outbox ++ [m] }

/-- The server's initial state. -/
def srvInit : SrvState :=
  { nextCoinId := 0, currentBundle := [], queue := [], outbox := [] }

/-- Run the bundling server over a sequence of creations and ticks. -/
def srvRun (rand : Nat → Bool) (ops : List SrvOp) : SrvState :=
  ops.foldl (srvStep rand) srvInit

/-- The reachability invariant of the bundling server: the current bundle
holds exactly the coinIds assigned since the last multiple of 8; queued
messages are newToken frames with already-assigned ids; every coinId that
completes a bundle already has its decision bundle in the broadcast log,
and it appears there before that coinId's own newToken broadcast; and
every broadcast bundle covers exactly one aligned block of 8 coinIds. -/
def SrvInv (rand : Nat → Bool) (s : SrvState) : Prop :=
  s.currentBundle =
    List.range' (s.nextCoinId - s.nextCoinId % 8) (s.nextCoinId % 8) ∧
  (∀ m ∈ s.queue, ∃ c, m = OutMsg.newToken c ∧ c < s.nextCoinId) ∧
  (∀ c, c % 8 = 7 → c < s.nextCoinId →
    ∃ dcs, OutMsg.bundle dcs ∈ s.outbox ∧ (c, rand c) ∈ dcs) ∧
  (∀ l1 c l2, s.outbox = l1 ++ OutMsg.newToken c :: l2 → c % 8 = 7 →
    ∃ dcs, OutMsg.bundle dcs ∈ l1 ∧ (c, rand c) ∈ dcs) ∧
  (∀ dcs, OutMsg.bundle dcs ∈ s.outbox →
    ∃ j, dcs = (List.range' (8 * j) 8).map (fun i => (i, rand i)))

lemma append_singleton_eq_append_cons {β : Type} :
    ∀ (xs : List β) (x : β) (l1 : List β) (c : β) (l2 : List β),
      xs ++ [x] = l1 ++ c :: l2 →
      (l1 = xs ∧ c = x ∧ l2 = []) ∨
        ∃ l2', xs = l1 ++ c :: l2' ∧ l2 = l2' ++ [x] := by
  intro xs
  induction xs with
  | nil =>
    intro x l1 c l2 h
    cases l1 with
    | nil =>
      simp only [List.nil_append] at h
      injection h with h1 h2
      exact Or.inl ⟨rfl, h1.symm, h2.symm⟩
    | cons b l1' =>
      simp only [List.nil_append, List.cons_append] at h
      injection h with h1 h2
      exact absurd h2.symm (by simp)
  | cons a xs' ih =>
    intro x l1 c l2 h
    cases l1 with
    | nil =>
      simp only [List.cons_append, List.nil_append] at h
      injection h with h1 h2
      exact Or.inr ⟨xs', by simp [h1], h2.symm⟩
    | cons b l1' =>
      simp only [List.cons_append] at h
      injection h with h1 h2
      rcases ih x l1' c l2 h2 with ⟨ha, hb, hc⟩ | ⟨l2', ha, hb⟩
      · exact Or.inl ⟨by simp [ha, h1], hb, hc⟩
      · exact Or.inr ⟨l2', by simp [h1, ha], hb⟩

lemma srvStep_inv (rand : Nat → Bool) (s : SrvState) (op : SrvOp)
    (hinv : SrvInv rand s) : SrvInv rand (srvStep rand s op) := by
  obtain ⟨h1, h2, h3, h4, h5⟩ := hinv
  cases op with
  | tick =>
    cases hq : s.queue with
    | nil =>
      simp only [srvStep, hq]
      exact ⟨h1, h2, h3, h4, h5⟩
    | cons m rest =>
      obtain ⟨c0, hm, hc0⟩ := h2 m (by rw [hq]; exact List.mem_cons_self _ _)
      subst hm
      simp only [srvStep, hq]
      refine ⟨h1, ?_, ?_, ?_, ?_⟩
      · intro m' hm'
        exact h2 m' (by rw [hq]; exact List.mem_cons_of_mem _ hm')
      · intro c hc7 hlt
        obtain ⟨dcs, hin, hmem⟩ := h3 c hc7 hlt
        exact ⟨dcs, List.mem_append_left _ hin, hmem⟩
      · intro l1 c l2 heq hc7
        rcases append_singleton_eq_append_cons s.outbox (OutMsg.newToken c0)
            l1 (OutMsg.newToken c) l2 heq with ⟨hl1, hcx, -⟩ | ⟨l2', hxs, -⟩
        · injection hcx with hcc
          obtain ⟨dcs, hin, hmem⟩ := h3 c hc7 (by rw [hcc]; exact hc0)
          exact ⟨dcs, hl1 ▸ hin, hmem⟩
        · exact h4 l1 c l2' hxs hc7
      · intro dcs hdin
        rcases List.mem_append.mp hdin with hold | hnew
        · exact h5 dcs hold
        · rw [List.mem_singleton] at hnew
          exact OutMsg.noConfusion hnew
  | create =>
    have hblen : s.currentBundle.length = s.nextCoinId % 8 := by
      rw [h1]; simp
    by_cases hmod : s.nextCoinId % 8 = 7
    · have hcond : (s.currentBundle ++ [s.nextCoinId]).length = BUNDLE_SIZE := by
        simp [hblen, hmod, BUNDLE_SIZE]
      have hbundleids : s.currentBundle ++ [s.nextCoinId] =
          List.range' (8 * (s.nextCoinId / 8)) 8 := by
        have h87 : 8 * (s.nextCoinId / 8) = s.nextCoinId - 7 := by omega
        have hcat : List.range' (s.nextCoinId - 7) 8 =
            List.range' (s.nextCoinId - 7) 7 ++ [s.nextCoinId - 7 + 1 * 7] :=
          List.range'_concat _ _
        have hel : s.nextCoinId - 7 + 1 * 7 = s.nextCoinId := by omega
        rw [h87, hcat, hel, h1, hmod]
      simp only [srvStep, handleCreate, hcond, if_pos]
      refine ⟨?_, ?_, ?_, ?_, ?_⟩
      · have hz : (s.nextCoinId + 1) % 8 = 0 := by omega
        simp [hz]
      · intro m hm
        rcases List.mem_append.mp hm with hold | hnew
        · obtain ⟨c, hc, hlt⟩ := h2 m hold
          exact ⟨c, hc, Nat.lt_succ_of_lt hlt⟩
        · rw [List.mem_singleton] at hnew
          exact ⟨s.nextCoinId, hnew, Nat.lt_succ_self _⟩
      · intro c hc7 hlt
        rcases Nat.lt_succ_iff_lt_or_eq.mp hlt with hlt' | heq
        · obtain ⟨dcs, hin, hmem⟩ := h3 c hc7 hlt'
          exact ⟨dcs, List.mem_append_left _ hin, hmem⟩
        · subst heq
          refine ⟨(s.currentBundle ++ [s.nextCoinId]).map (fun i => (i, rand i)),
            List.mem_append_right _ (List.mem_singleton.mpr rfl), ?_⟩
          exact List.mem_map_of_mem _
            (List.mem_append_right _ (List.mem_singleton.mpr rfl))
      · intro l1 c l2 heq hc7
        rcases append_singleton_eq_append_cons s.outbox
            (OutMsg.bundle ((s.currentBundle ++ [s.nextCoinId]).map
              (fun i => (i, rand i))))
            l1 (OutMsg.newToken c) l2 heq with ⟨-, hcx, -⟩ | ⟨l2', hxs, -⟩
        · exact OutMsg.noConfusion hcx
        · exact h4 l1 c l2' hxs hc7
      · intro dcs hdin
        rcases List.mem_append.mp hdin with hold | hnew
        · exact h5 dcs hold
        · rw [List.mem_singleton] at hnew
          injection hnew with hd
          exact ⟨s.nextCoinId / 8, by rw [hd, hbundleids]⟩
    · have hcond : ¬(s.currentBundle ++ [s.nextCoinId]).length = BUNDLE_SIZE := by
        simp only [List.length_append, hblen, List.length_cons,
          List.length_nil, BUNDLE_SIZE]
        omega
      simp only [srvStep, handleCreate, if_neg hcond]
      refine ⟨?_, ?_, ?_, ?_, ?_⟩
      · have e1 : (s.nextCoinId + 1) % 8 = s.nextCoinId % 8 + 1 := by omega
        have hcat : List.range' (s.nextCoinId + 1 - (s.nextCoinId % 8 + 1))
            (s.nextCoinId % 8 + 1) =
            List.range' (s.nextCoinId - s.nextCoinId % 8) (s.nextCoinId % 8) ++
              [s.nextCoinId] := by
          have e2 : s.nextCoinId + 1 - (s.nextCoinId % 8 + 1) =
              s.nextCoinId - s.nextCoinId % 8 := by omega
          have e3 : s.nextCoinId - s.nextCoinId % 8 + 1 * (s.nextCoinId % 8) =
              s.nextCoinId := by omega
          rw [e2, List.range'_concat, e3]
        dsimp only
        rw [e1, hcat, h1]
      · intro m hm
        rcases List.mem_append.mp hm with hold | hnew
        · obtain ⟨c, hc, hlt⟩ := h2 m hold
          exact ⟨c, hc, Nat.lt_succ_of_lt hlt⟩
        · rw [List.mem_singleton] at hnew
          exact ⟨s.nextCoinId, hnew, Nat.lt_succ_self _⟩
      · intro c hc7 hlt
        rcases Nat.lt_succ_iff_lt_or_eq.mp hlt with hlt' | heq
        · exact h3 c hc7 hlt'
        · exact absurd (heq ▸ hc7) hmod
      · exact h4
      · exact h5

lemma srvInit_inv (rand : Nat → Bool) : SrvInv rand srvInit := by
  refine ⟨by simp [srvInit], ?_, ?_, ?_, ?_⟩
  · intro m hm
    simp [srvInit] at hm
  · intro c _ hlt
    simp [srvInit] at hlt
  · intro l1 c l2 heq
    exact absurd heq.symm (by simp [srvInit])
  · intro dcs hdin
    simp [srvInit] at hdin

lemma srvRun_inv (rand : Nat → Bool) (ops : List SrvOp) :
    SrvInv rand (srvRun rand ops) := by
  have haux : ∀ (l : List SrvOp) (s : SrvState), SrvInv rand s →
      SrvInv rand (l.foldl (srvStep rand) s) := by
    intro l
    induction l with
    | nil => intro s hs; exact hs
    | cons op l ih =>
      intro s hs
      exact ih (srvStep rand s op) (srvStep_inv rand s op hs)
  exact haux ops srvInit (srvInit_inv rand)

/-! ## Claim theorems -/

/-- C1: for every initial card list and every per-frame elapsed distance,
after the frame's advance-and-clamp pass every adjacent pair satisfies
`newer.y + newer.height + SPACING ≤ older.y`, the invariant still holds
after the same frame's eviction pass, and it holds after every frame of
any nonempty run (card heights are nonnegative, as DOM / Pixi heights
are). -/
theorem renderer_no_overlap_invariant (cards : List Coin) (H d : ℚ)
    (ds : List ℚ) (hh : ∀ c ∈ cards, 0 ≤ c.height) :
    noOverlapB (advanceClamp d cards) = true ∧
    noOverlapB (frameStep H d cards) = true ∧
    noOverlapB (runFrames H (d :: ds) cards) = true :=
  ⟨advanceClamp_noOverlap d cards, frameStep_noOverlap hh,
    runFrames_cons_noOverlap H ds d cards hh⟩

/-- Witness for C1 at a concrete overlapping two-card state. -/
theorem renderer_no_overlap_invariant_witness :
    noOverlapB (frameStep 900 1 [⟨0, 100, 0⟩, ⟨1, 100, 50⟩]) = true :=
  (renderer_no_overlap_invariant [⟨0, 100, 0⟩, ⟨1, 100, 50⟩] 900 1 []
    (by decide)).2.1

/-- C8: every card whose post-clamp position exceeds the container height
is removed from the card sequence by the same frame's eviction pass, and
an identity absent from the card sequence never reappears under any later
sequence of frames. -/
theorem eviction_same_frame_and_permanent (H d : ℚ) (cards : List Coin)
    (ds : List ℚ) (i : Nat) :
    (∀ c ∈ advanceClamp d cards, H < c.y → c ∉ frameStep H d cards) ∧
    (i ∉ cards.map Coin.id → i ∉ (runFrames H ds cards).map Coin.id) := by
  constructor
  · intro c _ hy hmem
    have hkeep := (List.mem_filter.mp hmem).2
    simp only [decide_eq_true_eq] at hkeep
    linarith
  · exact runFrames_id_not_mem H ds cards i

/-- Witness for C8 at a concrete off-screen card. -/
theorem eviction_same_frame_and_permanent_witness :
    (⟨0, 100, 1000⟩ : Coin) ∉ frameStep 900 0 [⟨0, 100, 1000⟩] ∧
    5 ∉ (runFrames 900 [1] [⟨0, 100, 1000⟩]).map Coin.id :=
  ⟨(eviction_same_frame_and_permanent 900 0 [⟨0, 100, 1000⟩] [1] 5).1
      ⟨0, 100, 1000⟩ (by simp [advanceClamp]) (by decide),
   (eviction_same_frame_and_permanent 900 0 [⟨0, 100, 1000⟩] [1] 5).2
      (by decide)⟩

/-- C9: insertion places the new card at exactly `-height` at index 0,
independent of the existing cards; two insertions with no frame in
between (a reachable state when two events arrive between frames) violate
the adjacency invariant immediately; the next frame's clamp pass restores
it. -/
theorem insertion_no_spacing (cards : List Coin) (i i' : Nat)
    (h h' H d : ℚ) :
    insertCoin cards i h = { id := i, height := h, y := -h } :: cards ∧
    (0 ≤ h' →
      noOverlapB (insertCoin (insertCoin cards i' h') i h) = false) ∧
    ((∀ c ∈ insertCoin (insertCoin cards i' h') i h, 0 ≤ c.height) →
      noOverlapB
        (frameStep H d (insertCoin (insertCoin cards i' h') i h)) = true) := by
  refine ⟨rfl, ?_, ?_⟩
  · intro hh'
    simp only [insertCoin, noOverlapB]
    have hlt : ¬(COIN_SPACING ≤ -h') := by
      have hS : COIN_SPACING = (10 : ℚ) := rfl
      rw [hS]
      intro hcontra
      linarith
    simp [hlt]
  · intro hh
    exact frameStep_noOverlap hh

/-- Witness for C9 at two concrete height-100 insertions. -/
theorem insertion_no_spacing_witness :
    noOverlapB (insertCoin (insertCoin [] 0 100) 1 100) = false ∧
    noOverlapB (frameStep 900 1 (insertCoin (insertCoin [] 0 100) 1 100)) =
      true :=
  ⟨(insertion_no_spacing [] 1 0 100 100 900 1).2.1 (by decide),
   (insertion_no_spacing [] 1 0 100 100 900 1).2.2 (by decide)⟩

/-- C2: the pacer/queue pair is strict FIFO: the forwarded sequence
followed by the remaining queue is exactly the pushed sequence in push
order (so the forwarded sequence is a prefix of it); a tick on a
non-empty queue pops exactly the head and forwards exactly that event; a
tick on an empty queue is a no-op; a push appends; and no single step
forwards more than one event. -/
theorem queue_pacer_fifo (α : Type) (ops : List (QOp α)) (s : QState α)
    (e : α) (rest : List α) (op : QOp α) :
    ((qrun ops).sent ++ (qrun ops).queue = pushedOf ops) ∧
    ((qrun ops).sent <+: pushedOf ops) ∧
    (s.queue = e :: rest →
      qstep s QOp.tick = { queue := rest, sent := s.sent ++ [e] }) ∧
    (s.queue = [] → qstep s QOp.tick = s) ∧
    (qstep s (QOp.push e) = { s with queue := s.queue ++ [e] }) ∧
    ((qstep s op).sent.length ≤ s.sent.length + 1) := by
  have hfifo : (qrun ops).sent ++ (qrun ops).queue = pushedOf ops := by
    have hq := qfoldl_sent_queue ops { queue := [], sent := [] }
    simpa [qrun] using hq
  refine ⟨hfifo, ⟨(qrun ops).queue, hfifo⟩, ?_, ?_, rfl, ?_⟩
  · intro hq
    simp [qstep, hq]
  · intro hq
    simp [qstep, hq]
  · cases op with
    | push e' => simp [qstep]
    | tick =>
      cases hq : s.queue with
      | nil => simp [qstep, hq]
      | cons x xs => simp [qstep, hq]

/-- Witness for C2 on a concrete push-push-tick run. -/
theorem queue_pacer_fifo_witness :
    ((qrun [QOp.push 1, QOp.push 2, QOp.tick]).sent ++
        (qrun [QOp.push 1, QOp.push 2, QOp.tick]).queue =
      pushedOf [QOp.push 1, QOp.push 2, QOp.tick]) ∧
    qstep (⟨[5], []⟩ : QState Nat) QOp.tick = ⟨[], [5]⟩ :=
  ⟨(queue_pacer_fifo Nat [QOp.push 1, QOp.push 2, QOp.tick]
      ⟨[5], []⟩ 5 [] QOp.tick).1,
   (queue_pacer_fifo Nat [QOp.push 1, QOp.push 2, QOp.tick]
      ⟨[5], []⟩ 5 [] QOp.tick).2.2.1 rfl⟩

/-- C3 counterexample: a URL containing the `"/ipfs/"` segment twice
splits into three parts and is returned unchanged, not rewritten to the
canonical template with the part after the first `"/ipfs/"`. -/
theorem image_rewrite_counterexample :
    ipfsSeg <:+: jStr "https://a/ipfs/b/ipfs/c" ∧
    processMetadataImage (jStr "https://a/ipfs/b/ipfs/c") =
      jStr "https://a/ipfs/b/ipfs/c" ∧
    processMetadataImage (jStr "https://a/ipfs/b/ipfs/c") ≠
      pinataBase ++ jStr "b/ipfs/c" ++ imgQuery := by decide

/-- C3 (amended): a URL whose JavaScript split on `"/ipfs/"` yields
exactly two parts — equivalently, with exactly one leftmost-scan match —
decomposes as `a ++ "/ipfs/" ++ b` and is rewritten to the canonical
pinata template around that `b`; any other nonempty URL is returned
unchanged, and an empty URL yields the empty string. -/
theorem image_rewrite_amended (url a b : JStr) :
    (splitIpfs url = [a, b] →
      url = a ++ ipfsSeg ++ b ∧
      processMetadataImage url = pinataBase ++ b ++ imgQuery) ∧
    ((∀ a' b' : JStr, splitIpfs url ≠ [a', b']) →
      processMetadataImage url = url) ∧
    processMetadataImage [] = [] := by
  refine ⟨?_, ?_, rfl⟩
  · intro hsplit
    have hjoin := splitIpfs_join url
    rw [hsplit] at hjoin
    have hurl : url = a ++ ipfsSeg ++ b := by
      rw [← hjoin]
      rfl
    refine ⟨hurl, ?_⟩
    have hne : url ≠ [] := by
      intro h0
      rw [h0] at hsplit
      simp [splitIpfs, splitIpfsFuel] at hsplit
    unfold processMetadataImage
    rw [if_neg hne, hsplit]
  · intro hno
    by_cases h0 : url = []
    · subst h0
      rfl
    · unfold processMetadataImage
      rw [if_neg h0]
      cases hs : splitIpfs url with
      | nil => rfl
      | cons x xs =>
        cases xs with
        | nil => rfl
        | cons y ys =>
          cases ys with
          | nil => exact absurd hs (hno x y)
          | cons z zs => rfl

/-- Witness for C3 (amended) at a concrete single-segment URL. -/
theorem image_rewrite_amended_witness :
    jStr "https://x/ipfs/QmA" = jStr "https://x" ++ ipfsSeg ++ jStr "QmA" ∧
    processMetadataImage (jStr "https://x/ipfs/QmA") =
      pinataBase ++ jStr "QmA" ++ imgQuery :=
  (image_rewrite_amended (jStr "https://x/ipfs/QmA") (jStr "https://x")
    (jStr "QmA")).1 (by decide)

/-- C4 counterexample: a 36-space source description is longer than the
cap, yet its refined form is empty (length 0, not cap + 3), because the
code tests the normalized length, not the source length. -/
theorem description_cap_counterexample :
    (List.replicate 36 ' ').length = 36 ∧
    DESC_CAP < 36 ∧
    (refineDesc (List.replicate 36 ' ')).length = 0 ∧
    (refineDesc (List.replicate 36 ' ')).length ≠ DESC_CAP + 3 := by decide

/-- C4 (amended): when the whitespace-collapsed, trimmed, single-line
form of the source is longer than the 35-character cap, the refined
description is exactly its first 35 characters plus `"..."` — length
exactly 38 and free of CR/LF; when the normalized form is within the
cap, it is passed through unchanged. -/
theorem description_cap_amended (s : JStr) :
    (DESC_CAP < (normalizeDesc s).length →
      (refineDesc s).length = DESC_CAP + 3 ∧
      refineDesc s = (normalizeDesc s).take DESC_CAP ++ jStr "..." ∧
      ∀ c ∈ refineDesc s, c ≠ '\n' ∧ c ≠ '\r') ∧
    ((normalizeDesc s).length ≤ DESC_CAP → refineDesc s = normalizeDesc s) := by
  constructor
  · intro hlong
    have href : refineDesc s = (normalizeDesc s).take DESC_CAP ++ jStr "..." := by
      simp only [refineDesc]
      rw [if_pos hlong]
    refine ⟨?_, href, ?_⟩
    · rw [href, List.length_append, List.length_take,
        min_eq_left (le_of_lt hlong), show (jStr "...").length = 3 from by decide]
    · intro c hc
      rw [href] at hc
      rcases List.mem_append.mp hc with hmem | hmem
      · exact normalizeDesc_no_break (List.mem_of_mem_take hmem)
      · have hdot : c = '.' := by
          have hd : jStr "..." = ['.', '.', '.'] := by decide
          rw [hd] at hmem
          simpa using hmem
        subst hdot
        exact ⟨by decide, by decide⟩
  · intro hshort
    simp only [refineDesc]
    rw [if_neg (by omega)]

/-- Witness for C4 (amended) at a concrete 40-character description. -/
theorem description_cap_amended_witness :
    (refineDesc (List.replicate 40 'a')).length = DESC_CAP + 3 :=
  ((description_cap_amended (List.replicate 40 'a')).1 (by decide)).1

/-- A raw event carrying its own nonempty description and image, used to
show what total enrichment failure actually returns. -/
def cexRaw5 : TokenData :=
  { uri := some (jStr "u"), mint := jStr "m", metadata_name := none,
    metadata_symbol := none, name := none, symbol := none,
    description := some (jStr "hello"), image := some (jStr "img") }

/-- C5 counterexample: with every gateway failing, `enrichTokenData`
returns the raw event itself, so a raw event with a nonempty description
and image keeps them — they are not set to empty strings. -/
theorem enrich_total_failure_counterexample :
    (enrichTokenData (fun _ => none) cexRaw5).mint = cexRaw5.mint ∧
    (enrichTokenData (fun _ => none) cexRaw5).description =
      some (jStr "hello") ∧
    (enrichTokenData (fun _ => none) cexRaw5).description ≠ some [] ∧
    (enrichTokenData (fun _ => none) cexRaw5).image ≠ some [] := by decide

/-- C5 (amended): with every gateway failing, `enrichTokenData` returns
the original raw event unchanged — the mint is preserved and description
and image keep the raw event's own values (the later refinement step, not
the enricher, coerces falsy fields to empty strings). -/
theorem enrich_total_failure_amended (fetch : JStr → Option Metadata)
    (t : TokenData) (hfail : ∀ url, fetch url = none) :
    enrichTokenData fetch t = t ∧ (enrichTokenData fetch t).mint = t.mint := by
  have hid : enrichTokenData fetch t = t := by
    cases huri : t.uri with
    | none => simp [enrichTokenData, huri]
    | some u =>
      by_cases hu : u = []
      · simp [enrichTokenData, huri, hu]
      · simp [enrichTokenData, huri, hu,
          tryGateways_none fetch u IPFS_GATEWAYS hfail]
  exact ⟨hid, by rw [hid]⟩

/-- Witness for C5 (amended) at a concrete raw event and the
always-failing fetch oracle. -/
theorem enrich_total_failure_amended_witness :
    enrichTokenData (fun _ => none) cexRaw5 = cexRaw5 :=
  (enrich_total_failure_amended (fun _ => none) cexRaw5 (fun _ => rfl)).1

/-- A metadata document omitting its description and image fields. -/
def cexDoc6 : Metadata :=
  { name := some (jStr "NewName"), symbol := some (jStr "NN"),
    description := none, image := none }

/-- A raw event whose own description and image are nonempty. -/
def cexRaw6 : TokenData :=
  { uri := some (jStr "https://ipfs.io/ipfs/Qm1"), mint := jStr "m6",
    metadata_name := none, metadata_symbol := none, name := none,
    symbol := none, description := some (jStr "raw description"),
    image := some (jStr "rawimage") }

/-- A fetch oracle that succeeds only at the first gateway's URL for the
raw event above, returning the document that omits description/image. -/
def cexFetch6 : JStr → Option Metadata :=
  fun url =>
    if url = jStr "https://ipfs.io/ipfs/Qm1" then some cexDoc6 else none

/-- C6 counterexample: when the first successful document omits its
description, the enriched description is the empty string, not the raw
event's own description field — so description (and image) do not fall
back to raw fields as the claim states. -/
theorem enrich_fallback_counterexample :
    cexDoc6.description = none ∧
    cexRaw6.description = some (jStr "raw description") ∧
    (enrichTokenData cexFetch6 cexRaw6).description = some [] ∧
    (enrichTokenData cexFetch6 cexRaw6).description ≠ cexRaw6.description := by
  decide

/-- C6 (amended): an absent (or empty) uri returns the raw event
unchanged with no gateway attempted; otherwise gateways are tried in
listed order, each attempting the uri with the leftmost occurrence of the
first gateway base `https://ipfs.io/ipfs/` substituted by that gateway's
base (the uri unchanged when it does not contain that base), iteration
stops at the first success, and the result takes name/symbol from the
document with fallback to the raw `metadata_name`/`metadata_symbol`,
while description falls back to the empty string and image is the
processed form of the document's image (empty when absent) — not to raw
fields. -/
theorem enrich_algorithm_amended (fetch : JStr → Option Metadata)
    (t : TokenData) (u g : JStr) (doc : Metadata) (pre post : List JStr) :
    (t.uri = none → enrichTokenData fetch t = t) ∧
    (t.uri = some u → u ≠ [] → IPFS_GATEWAYS = pre ++ g :: post →
      (∀ g' ∈ pre, fetch (replaceFirst ipfsIoBase g' u) = none) →
      fetch (replaceFirst ipfsIoBase g u) = some doc →
      enrichTokenData fetch t =
        { t with
          name := jsOr doc.name t.metadata_name
          symbol := jsOr doc.symbol t.metadata_symbol
          description := some (doc.description.getD [])
          image := some (processMetadataImage (doc.image.getD [])) }) := by
  constructor
  · intro huri
    simp [enrichTokenData, huri]
  · intro huri hu hgw hpre hg
    have htry : tryGateways fetch u IPFS_GATEWAYS = some doc := by
      rw [hgw]
      exact tryGateways_first_success fetch u doc pre g post hpre hg
    simp [enrichTokenData, huri, hu, htry]

/-- Witness for C6 (amended): the concrete oracle succeeds at the first
gateway and the enriched record matches the characterization. -/
theorem enrich_algorithm_amended_witness :
    enrichTokenData cexFetch6 cexRaw6 =
      { cexRaw6 with
        name := jsOr cexDoc6.name cexRaw6.metadata_name
        symbol := jsOr cexDoc6.symbol cexRaw6.metadata_symbol
        description := some (cexDoc6.description.getD [])
        image := some (processMetadataImage (cexDoc6.image.getD [])) } :=
  (enrich_algorithm_amended cexFetch6 cexRaw6
    (jStr "https://ipfs.io/ipfs/Qm1") (jStr "https://ipfs.io/ipfs/")
    cexDoc6 []
    [jStr "https://gateway.pinata.cloud/ipfs/",
     jStr "https://dweb.link/ipfs/"]).2
    (by decide) (by decide) (by decide) (by simp) (by decide)

/-- The untagged refined frame a client may receive. -/
def cexUntagged7 : WireFrame :=
  untaggedFrame 3 (jStr "n") (jStr "s") (jStr "i") (jStr "d") (jStr "m")

/-- The tagged `newToken` frame a client may receive. -/
def cexTagged7 : WireFrame :=
  taggedFrame 3 (jStr "n") (jStr "s") (jStr "i") (jStr "d") (jStr "m")

/-- C7 counterexample: the DOM client's handler drops both the tagged and
the untagged new-token shapes, and the pixi client's handler drops the
untagged shape — so it is not the case that each client accepts both. -/
theorem frame_shape_counterexample :
    scriptHandles cexTagged7 = false ∧
    scriptHandles cexUntagged7 = false ∧
    pixiHandles cexUntagged7 = false := by decide

/-- C7 (amended): each client variant accepts only its own deployment's
shape: script.js creates a card only for frames with `txType "create"` or
`method "subscribeNewToken"` (dropping both untagged refined and tagged
frames); pixi-script.js only for tagged `newToken` frames; and only the
unnamed pixi variant creates a card for every frame. -/
theorem frame_shape_amended (cid : Nat) (n sy im de mi : JStr)
    (f : WireFrame) :
    scriptHandles (untaggedFrame cid n sy im de mi) = false ∧
    scriptHandles (taggedFrame cid n sy im de mi) = false ∧
    pixiHandles (untaggedFrame cid n sy im de mi) = false ∧
    pixiHandles (taggedFrame cid n sy im de mi) = true ∧
    part000Handles f = true :=
  ⟨rfl, rfl, rfl, rfl, rfl⟩

/-- C10: on an event that fills the bundle (current bundle length 7), the
handler broadcasts the decision bundle — mapping exactly the 8
accumulated coinIds, each to yes or no — directly to the broadcast log
while the triggering newToken goes only onto the paced queue; along any
run, the current bundle is exactly the coinIds assigned since the last
multiple of 8, every broadcast bundle covers exactly one aligned block of
8 coinIds, and in the broadcast log the bundle containing a triggering
coinId always precedes that coinId's own paced newToken broadcast. -/
theorem decision_bundle_bypasses_pacer (rand : Nat → Bool)
    (ops : List SrvOp) (s : SrvState) (l1 l2 : List OutMsg) (c : Nat) :
    (s.currentBundle.length = 7 →
      srvStep rand s SrvOp.create =
        { nextCoinId := s.nextCoinId + 1
          currentBundle := []
          queue := s.queue ++ [OutMsg.newToken s.nextCoinId]
          outbox := s.outbox ++
            [OutMsg.bundle ((s.currentBundle ++ [s.nextCoinId]).map
              (fun i => (i, rand i)))] }) ∧
    ((srvRun rand ops).currentBundle =
      List.range'
        ((srvRun rand ops).nextCoinId - (srvRun rand ops).nextCoinId % 8)
        ((srvRun rand ops).nextCoinId % 8)) ∧
    (∀ dcs, OutMsg.bundle dcs ∈ (srvRun rand ops).outbox →
      ∃ j, dcs = (List.range' (8 * j) 8).map (fun i => (i, rand i))) ∧
    ((srvRun rand ops).outbox = l1 ++ OutMsg.newToken c :: l2 → c % 8 = 7 →
      ∃ dcs, OutMsg.bundle dcs ∈ l1 ∧ (c, rand c) ∈ dcs) := by
  obtain ⟨h1, h2, h3, h4, h5⟩ := srvRun_inv rand ops
  refine ⟨?_, h1, h5, fun heq hc7 => h4 l1 c l2 heq hc7⟩
  intro hlen
  have hcond : (s.currentBundle ++ [s.nextCoinId]).length = BUNDLE_SIZE := by
    simp [hlen, BUNDLE_SIZE]
  simp [srvStep, handleCreate, hcond]

/-- The always-yes decision oracle used for the C10 witness. -/
def rand0 : Nat → Bool := fun _ => true

/-- Eight creations followed by eight pacer ticks. -/
def ops0 : List SrvOp :=
  List.replicate 8 SrvOp.create ++ List.replicate 8 SrvOp.tick

/-- The broadcast-log prefix that precedes `newToken 7` in the run of
`ops0`: the decision bundle first, then the seven earlier newTokens. -/
def wOutPrefix : List OutMsg :=
  [OutMsg.bundle
      [(0, true), (1, true), (2, true), (3, true),
       (4, true), (5, true), (6, true), (7, true)],
   OutMsg.newToken 0, OutMsg.newToken 1, OutMsg.newToken 2,
   OutMsg.newToken 3, OutMsg.newToken 4, OutMsg.newToken 5,
   OutMsg.newToken 6]

/-- Witness for C10: in the concrete run, the bundle containing coinId 7
is broadcast before coinId 7's own newToken frame. -/
theorem decision_bundle_bypasses_pacer_witness :
    ∃ dcs, OutMsg.bundle dcs ∈ wOutPrefix ∧ ((7 : Nat), rand0 7) ∈ dcs :=
  (decision_bundle_bypasses_pacer rand0 ops0 srvInit wOutPrefix [] 7).2.2.2
    (by decide) (by decide)
